import Mathlib

/-!
Verification development for the SSD meta-architecture
(detectron2/modeling/meta_arch/ssd.py): a shallow embedding of the anchor
label predicates, the two loss variants of SSD.losses (Focal and Multibox
with hard-negative mining), the target assignment of SSD.get_ground_truth,
and the per-level candidate selection of SSD.inference_single_image.

Modelling conventions: tensors of per-anchor quantities become functions
over Fin-indexed domains; float arithmetic is modelled exactly over an
arbitrary linearly ordered field (instantiated at ℚ for concrete
evaluation); transcendental pieces (softmax, log, sigmoid focal loss) are
modelled over ℝ.  The per-anchor softmax cross-entropy produced by
F.cross_entropy is realised over ℝ by softmaxCrossEntropy; the structural
selection logic of the Multibox variant is stated for an arbitrary vector
of per-anchor loss values.  Ranking ties (torch.argsort) are resolved
deterministically by ascending anchor index, the stable-sort semantics.
-/

namespace SSDSpec

/-- Valid anchors in SSD.losses: valid_idxs = gt_classes >= 0 (line 181). -/
def validIdx (g : ℤ) : Prop := 0 ≤ g

instance (g : ℤ) : Decidable (validIdx g) :=
  inferInstanceAs (Decidable (0 ≤ g))

/-- Foreground anchors: (gt_classes >= 0) & (gt_classes != num_classes) (line 182). -/
def foregroundIdx (K : ℕ) (g : ℤ) : Prop := 0 ≤ g ∧ g ≠ (K : ℤ)

instance (K : ℕ) (g : ℤ) : Decidable (foregroundIdx K g) :=
  inferInstanceAs (Decidable (0 ≤ g ∧ g ≠ (K : ℤ)))

/-- Background anchors: gt_classes == num_classes (line 183). -/
def backgroundIdx (K : ℕ) (g : ℤ) : Prop := g = (K : ℤ)

instance (K : ℕ) (g : ℤ) : Decidable (backgroundIdx K g) :=
  inferInstanceAs (Decidable (g = (K : ℤ)))

/-- Batch-wide foreground count: num_foreground = foreground_idxs.sum() (line 184). -/
def numForeground (K : ℕ) {N R : ℕ} (gtClasses : Fin N → Fin R → ℤ) : ℕ :=
  (Finset.univ.filter (fun p : Fin N × Fin R => foregroundIdx K (gtClasses p.1 p.2))).card

/-- Per-image foreground count: foreground_idxs.view(batch_size, -1).sum(1) (line 218). -/
def numForegroundPerImg (K : ℕ) {R : ℕ} (row : Fin R → ℤ) : ℕ :=
  (Finset.univ.filter (fun r => foregroundIdx K (row r))).card

/-- Descending rank of position i in the vector v, as computed by
(-v).argsort().argsort() (line 217): rank 0 is the largest value.  Ties are
broken by ascending index (stable-sort semantics). -/
def rankOf {α : Type*} [LinearOrder α] {n : ℕ} (v : Fin n → α) (i : Fin n) : ℕ :=
  (Finset.univ.filter (fun j => v i < v j)).card
    + (Finset.univ.filter (fun j => v j = v i ∧ j < i)).card

variable {α : Type*}

section MultiboxModel

variable [LinearOrderedField α]

/-- loss_for_all_indices (lines 208-209): the per-anchor cross-entropy ce
scattered onto valid anchors, zero elsewhere. -/
def lossForAllIndices {N R : ℕ} (gtClasses : Fin N → Fin R → ℤ)
    (ce : Fin N → Fin R → α) (i : Fin N) (r : Fin R) : α :=
  if validIdx (gtClasses i r) then ce i r else 0

/-- loss_for_neg_indices (lines 211-212): the per-anchor loss restricted to
background anchors, zero elsewhere. -/
def lossForNegIndices (K : ℕ) {N R : ℕ} (gtClasses : Fin N → Fin R → ℤ)
    (ce : Fin N → Fin R → α) (i : Fin N) (r : Fin R) : α :=
  if backgroundIdx K (gtClasses i r) then lossForAllIndices gtClasses ce i r else 0

/-- Per-image descending rank of the negative losses (line 217). -/
def negRank (K : ℕ) {N R : ℕ} (gtClasses : Fin N → Fin R → ℤ)
    (ce : Fin N → Fin R → α) (i : Fin N) (r : Fin R) : ℕ :=
  rankOf (fun q => lossForNegIndices K gtClasses ce i q) r

/-- Hard negatives (lines 220-226): background anchors whose per-image rank
is below neg_pos_ratio * num_foreground_per_img. -/
def hardNegative (K ratio : ℕ) {N R : ℕ} (gtClasses : Fin N → Fin R → ℤ)
    (ce : Fin N → Fin R → α) (i : Fin N) (r : Fin R) : Prop :=
  negRank K gtClasses ce i r < ratio * numForegroundPerImg K (gtClasses i)
    ∧ backgroundIdx K (gtClasses i r)

instance (K ratio : ℕ) {N R : ℕ} (gtClasses : Fin N → Fin R → ℤ)
    (ce : Fin N → Fin R → α) (i : Fin N) (r : Fin R) :
    Decidable (hardNegative K ratio gtClasses ce i r) :=
  inferInstanceAs (Decidable (_ ∧ _))

/-- Multibox classification loss (lines 204-229): zero the per-anchor loss
outside hard_negative | foreground_idxs (line 228), sum over valid anchors
and divide by max(1, num_foreground) (line 229).  The per-anchor softmax
cross-entropy values of line 204 enter as the vector ce. -/
def multiboxLossCls (K ratio : ℕ) {N R : ℕ} (gtClasses : Fin N → Fin R → ℤ)
    (ce : Fin N → Fin R → α) : α :=
  (∑ p ∈ Finset.univ.filter (fun p : Fin N × Fin R => validIdx (gtClasses p.1 p.2)),
      if hardNegative K ratio gtClasses ce p.1 p.2 ∨ foregroundIdx K (gtClasses p.1 p.2)
        then lossForAllIndices gtClasses ce p.1 p.2 else 0)
    / (max 1 (numForeground K gtClasses) : ℕ)

/-- Elementwise smooth-L1 loss of fvcore.nn.smooth_l1_loss: plain absolute
difference when beta < 1e-5, otherwise quadratic below beta and linear
above. -/
def smoothL1 (beta x y : α) : α :=
  if beta < 1 / 100000 then |x - y|
  else if |x - y| < beta then (x - y) ^ 2 / (2 * beta) else |x - y| - beta / 2

/-- Regression loss (lines 232-237): smooth-L1 between predicted and target
deltas over foreground anchors, summed, divided by max(1, num_foreground).
It is computed outside the variant branch, hence shared by both variants. -/
def lossBoxReg (K : ℕ) {N R : ℕ} (beta : α) (gtClasses : Fin N → Fin R → ℤ)
    (gtDeltas predDeltas : Fin N → Fin R → Fin 4 → α) : α :=
  (∑ p ∈ Finset.univ.filter (fun p : Fin N × Fin R => foregroundIdx K (gtClasses p.1 p.2)),
      ∑ k : Fin 4, smoothL1 beta (predDeltas p.1 p.2 k) (gtDeltas p.1 p.2 k))
    / (max 1 (numForeground K gtClasses) : ℕ)

/-- The summed smooth-L1 terms contributed by the anchors of one image to
the numerator of lossBoxReg. -/
def imageRegContribution (K : ℕ) {R : ℕ} (beta : α) (classes : Fin R → ℤ)
    (gtD predD : Fin R → Fin 4 → α) : α :=
  ∑ r ∈ Finset.univ.filter (fun r => foregroundIdx K (classes r)),
    ∑ k : Fin 4, smoothL1 beta (predD r k) (gtD r k)

end MultiboxModel

/-- Focal-variant classification target (lines 188-189): a zero tensor of
the shape of pred_class_logits (N*R rows, K+1 columns) with
target[i, gt_classes[i]] = 1 at every valid anchor i.  Entry at row with
class value g and column c. -/
def gtClassesTarget (g : ℤ) (c : ℕ) : ℚ :=
  if 0 ≤ g ∧ g = (c : ℤ) then 1 else 0

/-- Logistic sigmoid. -/
noncomputable def sigmoid (x : ℝ) : ℝ := 1 / (1 + Real.exp (-x))

/-- Binary cross-entropy with logits, as computed inside
fvcore sigmoid_focal_loss. -/
noncomputable def sigmoidCE (x t : ℝ) : ℝ :=
  -(t * Real.log (sigmoid x) + (1 - t) * Real.log (1 - sigmoid x))

/-- Elementwise sigmoid focal loss of fvcore.nn.sigmoid_focal_loss:
ce_loss * (1 - p_t)^gamma, scaled by alpha_t when alpha >= 0. -/
noncomputable def sigmoidFocalLoss (alpha gamma x t : ℝ) : ℝ :=
  (if 0 ≤ alpha then alpha * t + (1 - alpha) * (1 - t) else 1)
    * (sigmoidCE x t
        * (1 - (sigmoid x * t + (1 - sigmoid x) * (1 - t))) ^ gamma)

/-- Focal classification loss (lines 186-198): sigmoid focal loss between
logits and the one-hot targets, summed over valid anchors and all K+1
columns, divided by max(1, num_foreground). -/
noncomputable def focalLossCls (K : ℕ) {N R : ℕ} (alpha gamma : ℝ)
    (gtClasses : Fin N → Fin R → ℤ) (logits : Fin N → Fin R → ℕ → ℝ) : ℝ :=
  (∑ p : Fin N × Fin R,
      if validIdx (gtClasses p.1 p.2) then
        ∑ c ∈ Finset.range (K + 1),
          sigmoidFocalLoss alpha gamma (logits p.1 p.2 c)
            ((gtClassesTarget (gtClasses p.1 p.2) c : ℚ) : ℝ)
      else 0)
    / (max 1 (numForeground K gtClasses) : ℕ)

/-- Softmax over the first K1 columns of a row, at column c. -/
noncomputable def softmaxCol (K1 : ℕ) (row : ℕ → ℝ) (c : ℕ) : ℝ :=
  Real.exp (row c) / ∑ d ∈ Finset.range K1, Real.exp (row d)

/-- Per-anchor softmax cross-entropy of F.cross_entropy (line 204):
negative log-softmax of the logit row at the target class. -/
noncomputable def softmaxCrossEntropy (K1 : ℕ) (row : ℕ → ℝ) (t : ℕ) : ℝ :=
  -Real.log (softmaxCol K1 row t)

/-- The loss variant selected by cfg.MODEL.SSD.LOSS_NAME. -/
inductive LossName where
  | Focal
  | Multibox

/-- SSD.losses (lines 154-239): returns (loss_cls, loss_box_reg).  The
classification term branches on the variant; the regression term is shared. -/
noncomputable def ssdLosses (name : LossName) (K ratio : ℕ) {N R : ℕ}
    (alpha gamma beta : ℝ) (gtClasses : Fin N → Fin R → ℤ)
    (logits : Fin N → Fin R → ℕ → ℝ)
    (gtDeltas predDeltas : Fin N → Fin R → Fin 4 → ℝ) : ℝ × ℝ :=
  (match name with
    | .Focal => focalLossCls K alpha gamma gtClasses logits
    | .Multibox =>
        multiboxLossCls K ratio gtClasses
          (fun i r => softmaxCrossEntropy (K + 1) (logits i r) (gtClasses i r).toNat),
   lossBoxReg K beta gtClasses gtDeltas predDeltas)

/-- An axis-aligned box with rational coordinates. -/
structure Box where
  x1 : ℚ
  y1 : ℚ
  x2 : ℚ
  y2 : ℚ

/-- Placeholder box used as the getD default when gathering matched ground
truth; the matcher guarantees in-range indices whenever targets exist. -/
def dummyBox : Box := ⟨0, 0, 0, 0⟩

/-- Single-image body of SSD.get_ground_truth (lines 274-296).  The matcher
output (gt_matched_idxs, anchor_labels) and the box2box encoding get_deltas
are external collaborators (detectron2 Matcher / Box2BoxTransform) and enter
as inputs.  With ground truth present, classes are gathered at the matched
indices, then label 0 is overwritten with the background sentinel K and
label -1 with the ignore sentinel -1 (lines 286-290); with no ground truth,
every anchor is background with zero deltas (lines 291-293). -/
def getGroundTruthSingle (K : ℕ) {A : ℕ} (targets : List (Box × ℕ))
    (matchedIdxs : Fin A → ℕ) (anchorLabels : Fin A → ℤ)
    (anchorBoxes : Fin A → Box) (getDeltas : Box → Box → Fin 4 → ℚ) :
    (Fin A → ℤ) × (Fin A → Fin 4 → ℚ) :=
  if 0 < targets.length then
    (fun r =>
        if anchorLabels r = -1 then -1
        else if anchorLabels r = 0 then (K : ℤ)
        else ((targets.getD (matchedIdxs r) (dummyBox, 0)).2 : ℤ),
     fun r k => getDeltas (anchorBoxes r) (targets.getD (matchedIdxs r) (dummyBox, 0)).1 k)
  else
    (fun _ => (K : ℤ), fun _ _ => 0)

section InferenceModel

variable [LinearOrder α] [Inhabited α]

/-- Per-level flattened score list of inference_single_image (lines
354-356): drop the last of the K+1 softmax columns, then flatten the
(location, class) grid row-major. -/
def levelFlat (R K : ℕ) (grid : ℕ → ℕ → α) : List α :=
  ((List.range R).map (fun r => (List.range K).map (fun c => grid r c))).flatten

/-- Score of flat index j in the flattened list l. -/
def flatScore (l : List α) (j : ℕ) : α := l.getD j default

/-- Comparison used to model torch.sort(descending=True) on scores via
index sort: larger score first, ties by ascending index. -/
def descBy (score : ℕ → α) (a b : ℕ) : Prop :=
  score b < score a ∨ (score a = score b ∧ a ≤ b)

instance (score : ℕ → α) : DecidableRel (descBy score) := fun a b =>
  inferInstanceAs (Decidable (score b < score a ∨ (score a = score b ∧ a ≤ b)))

/-- Indices of the flattened scores sorted descending (line 361). -/
def sortIdxs (l : List α) : List ℕ :=
  (List.range l.length).insertionSort (descBy (flatScore l))

/-- num_topk = min(self.topk_candidates, box_reg_i.size(0)) (line 359);
box_reg_i.size(0) is the number R of anchor locations on the level. -/
def numTopk (topk R : ℕ) : ℕ := min topk R

/-- Indices kept by the top-k truncation (lines 362-363). -/
def topkIdxs (topk R : ℕ) (l : List α) : List ℕ :=
  (sortIdxs l).take (numTopk topk R)

/-- Indices surviving the score threshold (lines 366-368): keep_idxs =
predicted_prob > score_threshold. -/
def keepIdxs (thr : α) (topk R : ℕ) (l : List α) : List ℕ :=
  (topkIdxs topk R l).filter (fun j => decide (thr < flatScore l j))

/-- Scores of the surviving per-level candidates. -/
def levelScores (thr : α) (topk R : ℕ) (l : List α) : List α :=
  (keepIdxs thr topk R l).map (flatScore l)

/-- Class indices of the surviving per-level candidates (line 371):
classes_idxs = topk_idxs % num_classes. -/
def levelClassIdxs (thr : α) (topk R K : ℕ) (l : List α) : List ℕ :=
  (keepIdxs thr topk R l).map (fun j => j % K)

end InferenceModel

/-- Softmax scores of a level, from its raw logit grid (line 354). -/
noncomputable def levelSoftmaxGrid (K : ℕ) (logits : ℕ → ℕ → ℝ) : ℕ → ℕ → ℝ :=
  fun r c => softmaxCol (K + 1) (logits r) c

/-- All candidate scores of one image, concatenated across levels (lines
351-384): each level is a pair of its anchor-location count R and its raw
logit grid. -/
noncomputable def inferenceScoresAll (K topk : ℕ) (thr : ℝ)
    (levels : List (ℕ × (ℕ → ℕ → ℝ))) : List ℝ :=
  (levels.map (fun lv =>
      levelScores thr topk lv.1 (levelFlat lv.1 K (levelSoftmaxGrid K lv.2)))).flatten

/-- Scores attached to the returned detections (lines 385-391): batched_nms
is an external collaborator whose output keep is a list of indices into the
concatenated candidates; it is truncated to max_detections_per_image and
used to gather the scores. -/
noncomputable def resultScores (K topk : ℕ) (thr : ℝ)
    (levels : List (ℕ × (ℕ → ℕ → ℝ))) (maxDet : ℕ)
    (keep : List (Fin (inferenceScoresAll K topk thr levels).length)) : List ℝ :=
  (keep.take maxDet).map (fun i => (inferenceScoresAll K topk thr levels).get i)

/-! ## Basic facts about the label predicates -/

lemma validIdx_of_foreground {K : ℕ} {g : ℤ} (h : foregroundIdx K g) : validIdx g := h.1

lemma validIdx_of_background {K : ℕ} {g : ℤ} (h : backgroundIdx K g) : validIdx g := by
  unfold validIdx
  rw [h]
  exact Int.natCast_nonneg K

lemma not_foreground_of_background {K : ℕ} {g : ℤ} (h : backgroundIdx K g) :
    ¬ foregroundIdx K g := by
  intro hf
  exact hf.2 h

/-! ## The Multibox classification loss as a sum over the selected anchors -/

lemma lossForAllIndices_of_valid [LinearOrderedField α] {N R : ℕ}
    {gtClasses : Fin N → Fin R → ℤ} {ce : Fin N → Fin R → α} {i : Fin N} {r : Fin R}
    (h : validIdx (gtClasses i r)) : lossForAllIndices gtClasses ce i r = ce i r := by
  unfold lossForAllIndices
  exact if_pos h

lemma multiboxLossCls_eq_sum_union [LinearOrderedField α] (K ratio : ℕ) {N R : ℕ}
    (gtClasses : Fin N → Fin R → ℤ) (ce : Fin N → Fin R → α) :
    multiboxLossCls K ratio gtClasses ce
      = (∑ p ∈ Finset.univ.filter (fun p : Fin N × Fin R =>
            foregroundIdx K (gtClasses p.1 p.2) ∨ hardNegative K ratio gtClasses ce p.1 p.2),
          ce p.1 p.2)
        / (max 1 (numForeground K gtClasses) : ℕ) := by
  unfold multiboxLossCls
  congr 1
  rw [Finset.sum_filter, Finset.sum_filter]
  apply Finset.sum_congr rfl
  intro p _
  by_cases hv : validIdx (gtClasses p.1 p.2)
  · rw [if_pos hv]
    by_cases hsel : hardNegative K ratio gtClasses ce p.1 p.2
        ∨ foregroundIdx K (gtClasses p.1 p.2)
    · rw [if_pos hsel, if_pos (Or.symm hsel), lossForAllIndices_of_valid hv]
    · rw [if_neg hsel, if_neg (fun h => hsel (Or.symm h))]
  · have hnf : ¬ foregroundIdx K (gtClasses p.1 p.2) := fun h => hv (validIdx_of_foreground h)
    have hnh : ¬ hardNegative K ratio gtClasses ce p.1 p.2 := fun h =>
      hv (validIdx_of_background h.2)
    rw [if_neg hv, if_neg (fun h => h.elim hnf hnh)]

/-- C1: In the Multibox loss variant, for every batch the classification
loss equals the sum of per-anchor softmax cross-entropy over exactly the
union of foreground anchors and the selected hard-negative background
anchors, divided by max(1, batch-wide numForeground); anchors outside that
union (unselected background and ignore anchors) contribute nothing to the
sum. -/
theorem multibox_cls_loss_is_sum_over_fg_union_hard_negatives (K ratio : ℕ) {N R : ℕ}
    (alpha gamma beta : ℝ) (gtClasses : Fin N → Fin R → ℤ)
    (logits : Fin N → Fin R → ℕ → ℝ) (gtDeltas predDeltas : Fin N → Fin R → Fin 4 → ℝ) :
    (ssdLosses LossName.Multibox K ratio alpha gamma beta gtClasses logits gtDeltas predDeltas).1
      = (∑ p ∈ Finset.univ.filter (fun p : Fin N × Fin R =>
            foregroundIdx K (gtClasses p.1 p.2)
              ∨ hardNegative K ratio gtClasses
                  (fun i r => softmaxCrossEntropy (K + 1) (logits i r) (gtClasses i r).toNat)
                  p.1 p.2),
          softmaxCrossEntropy (K + 1) (logits p.1 p.2) (gtClasses p.1 p.2).toNat)
        / (max 1 (numForeground K gtClasses) : ℕ) :=
  multiboxLossCls_eq_sum_union K ratio gtClasses _

/-! ## Rank machinery for hard-negative selection -/

lemma rankOf_lt_rankOf [LinearOrder α] {n : ℕ} {v : Fin n → α} {i j : Fin n}
    (h : v j < v i ∨ (v i = v j ∧ i < j)) : rankOf v i < rankOf v j := by
  rcases h with h | ⟨heq, hij⟩
  · have hsub : (Finset.univ.filter (fun k => v i < v k))
        ∪ (Finset.univ.filter (fun k => v k = v i))
        ⊆ Finset.univ.filter (fun k => v j < v k) := by
      intro k hk
      simp only [Finset.mem_union, Finset.mem_filter, Finset.mem_univ, true_and] at hk ⊢
      rcases hk with hk | hk
      · exact lt_trans h hk
      · rw [hk]; exact h
    have hdisj : Disjoint (Finset.univ.filter (fun k => v i < v k))
        (Finset.univ.filter (fun k => v k = v i)) := by
      rw [Finset.disjoint_left]
      intro k h1 h2
      simp only [Finset.mem_filter, Finset.mem_univ, true_and] at h1 h2
      exact absurd h2 (ne_of_gt h1)
    have hins : insert i (Finset.univ.filter (fun k => v k = v i ∧ k < i))
        ⊆ Finset.univ.filter (fun k => v k = v i) := by
      intro k hk
      simp only [Finset.mem_insert, Finset.mem_filter, Finset.mem_univ, true_and] at hk ⊢
      rcases hk with rfl | hk
      · rfl
      · exact hk.1
    have h1 : (Finset.univ.filter (fun k => v i < v k)).card
        + (Finset.univ.filter (fun k => v k = v i)).card
        ≤ (Finset.univ.filter (fun k => v j < v k)).card := by
      rw [← Finset.card_union_of_disjoint hdisj]
      exact Finset.card_le_card hsub
    have h2 : (Finset.univ.filter (fun k => v k = v i ∧ k < i)).card + 1
        ≤ (Finset.univ.filter (fun k => v k = v i)).card := by
      have hnotmem : i ∉ Finset.univ.filter (fun k => v k = v i ∧ k < i) := by
        intro hmem
        rw [Finset.mem_filter] at hmem
        exact absurd hmem.2.2 (lt_irrefl i)
      rw [← Finset.card_insert_of_not_mem hnotmem]
      exact Finset.card_le_card hins
    unfold rankOf
    omega
  · have hA : (Finset.univ.filter (fun k => v i < v k))
        = (Finset.univ.filter (fun k => v j < v k)) := by
      apply Finset.filter_congr
      intro k _
      rw [heq]
    have hins : insert i (Finset.univ.filter (fun k => v k = v i ∧ k < i))
        ⊆ Finset.univ.filter (fun k => v k = v j ∧ k < j) := by
      intro k hk
      simp only [Finset.mem_insert, Finset.mem_filter, Finset.mem_univ, true_and] at hk ⊢
      rcases hk with rfl | hk
      · exact ⟨heq, hij⟩
      · exact ⟨hk.1.trans heq, lt_trans hk.2 hij⟩
    have hnotmem : i ∉ Finset.univ.filter (fun k => v k = v i ∧ k < i) := by
      intro hmem
      rw [Finset.mem_filter] at hmem
      exact absurd hmem.2.2 (lt_irrefl i)
    have h2 : (Finset.univ.filter (fun k => v k = v i ∧ k < i)).card + 1
        ≤ (Finset.univ.filter (fun k => v k = v j ∧ k < j)).card := by
      rw [← Finset.card_insert_of_not_mem hnotmem]
      exact Finset.card_le_card hins
    have h1 : (Finset.univ.filter (fun k => v i < v k)).card
        = (Finset.univ.filter (fun k => v j < v k)).card := by
      rw [hA]
    unfold rankOf
    omega

lemma rankOf_injective [LinearOrder α] {n : ℕ} (v : Fin n → α) :
    Function.Injective (rankOf v) := by
  intro i j heq
  by_contra hne
  rcases lt_trichotomy (v i) (v j) with h | h | h
  · exact absurd heq (ne_of_gt (rankOf_lt_rankOf (Or.inl h)))
  · rcases lt_or_gt_of_ne hne with hij | hij
    · exact absurd heq (ne_of_lt (rankOf_lt_rankOf (Or.inr ⟨h, hij⟩)))
    · exact absurd heq (ne_of_gt (rankOf_lt_rankOf (Or.inr ⟨h.symm, hij⟩)))
  · exact absurd heq (ne_of_lt (rankOf_lt_rankOf (Or.inl h)))

lemma rankOf_lt_card_of_mem [LinearOrder α] {n : ℕ} {v : Fin n → α} {S : Finset (Fin n)}
    (hdom : ∀ r ∈ S, ∀ s, s ∉ S → v s < v r) {r : Fin n} (hr : r ∈ S) :
    rankOf v r < S.card := by
  have hsubA : Finset.univ.filter (fun k => v r < v k) ⊆ S.erase r := by
    intro k hk
    simp only [Finset.mem_filter, Finset.mem_univ, true_and] at hk
    rw [Finset.mem_erase]
    constructor
    · intro hkr
      rw [hkr] at hk
      exact lt_irrefl _ hk
    · by_contra hkS
      exact absurd hk (not_lt_of_gt (hdom r hr k hkS))
  have hsubB : Finset.univ.filter (fun k => v k = v r ∧ k < r) ⊆ S.erase r := by
    intro k hk
    simp only [Finset.mem_filter, Finset.mem_univ, true_and] at hk
    rw [Finset.mem_erase]
    refine ⟨ne_of_lt hk.2, ?_⟩
    by_contra hkS
    exact absurd hk.1 (ne_of_lt (hdom r hr k hkS))
  have hdisj : Disjoint (Finset.univ.filter (fun k => v r < v k))
      (Finset.univ.filter (fun k => v k = v r ∧ k < r)) := by
    rw [Finset.disjoint_left]
    intro k h1 h2
    simp only [Finset.mem_filter, Finset.mem_univ, true_and] at h1 h2
    exact absurd h2.1 (ne_of_gt h1)
  have hcard : rankOf v r
      ≤ (S.erase r).card := by
    unfold rankOf
    rw [← Finset.card_union_of_disjoint hdisj]
    exact Finset.card_le_card (Finset.union_subset hsubA hsubB)
  exact lt_of_le_of_lt hcard (Finset.card_erase_lt_of_mem hr)

lemma range_filter_lt_card (n t : ℕ) :
    ((Finset.range n).filter (fun x => x < t)).card = min t n := by
  have h : (Finset.range n).filter (fun x => x < t) = Finset.range (min t n) := by
    ext x
    simp only [Finset.mem_filter, Finset.mem_range]
    omega
  rw [h, Finset.card_range]

lemma card_filter_rankOf_lt [LinearOrder α] {n : ℕ} (v : Fin n → α) (S : Finset (Fin n))
    (hdom : ∀ r ∈ S, ∀ s, s ∉ S → v s < v r) (t : ℕ) :
    (S.filter (fun r => rankOf v r < t)).card = min t S.card := by
  have himg : S.image (rankOf v) = Finset.range S.card := by
    apply Finset.eq_of_subset_of_card_le
    · intro x hx
      rw [Finset.mem_image] at hx
      obtain ⟨r, hr, rfl⟩ := hx
      exact Finset.mem_range.mpr (rankOf_lt_card_of_mem hdom hr)
    · rw [Finset.card_range, Finset.card_image_of_injOn (rankOf_injective v).injOn]
  have hstep : ((S.image (rankOf v)).filter (fun x => x < t)).card
      = (S.filter (fun r => rankOf v r < t)).card := by
    rw [Finset.filter_image, Finset.card_image_of_injOn (rankOf_injective v).injOn]
  rw [← hstep, himg, range_filter_lt_card]

/-- C2: In the Multibox loss variant, for every image whose per-anchor
cross-entropy losses at background anchors are all strictly positive, the
number of background anchors selected as hard negatives is exactly
min(neg_pos_ratio * numForegroundInThisImage, numBackgroundAnchors); in
particular an image with zero foreground anchors selects zero hard
negatives. -/
theorem hard_negative_count_eq_min [LinearOrderedField α] (K ratio : ℕ) {N R : ℕ}
    (gtClasses : Fin N → Fin R → ℤ) (ce : Fin N → Fin R → α) (i : Fin N)
    (hpos : ∀ r, backgroundIdx K (gtClasses i r) → 0 < ce i r) :
    (Finset.univ.filter (fun r => hardNegative K ratio gtClasses ce i r)).card
      = min (ratio * numForegroundPerImg K (gtClasses i))
          ((Finset.univ.filter (fun r => backgroundIdx K (gtClasses i r))).card) := by
  have hdom : ∀ r ∈ Finset.univ.filter (fun r => backgroundIdx K (gtClasses i r)),
      ∀ s, s ∉ Finset.univ.filter (fun r => backgroundIdx K (gtClasses i r)) →
        lossForNegIndices K gtClasses ce i s < lossForNegIndices K gtClasses ce i r := by
    intro r hr s hs
    simp only [Finset.mem_filter, Finset.mem_univ, true_and] at hr hs
    have hvr : lossForNegIndices K gtClasses ce i r = ce i r := by
      unfold lossForNegIndices
      rw [if_pos hr, lossForAllIndices_of_valid (validIdx_of_background hr)]
    have hvs : lossForNegIndices K gtClasses ce i s = 0 := by
      unfold lossForNegIndices
      rw [if_neg hs]
    rw [hvr, hvs]
    exact hpos r hr
  have hset : Finset.univ.filter (fun r => hardNegative K ratio gtClasses ce i r)
      = (Finset.univ.filter (fun r => backgroundIdx K (gtClasses i r))).filter
          (fun r => rankOf (fun q => lossForNegIndices K gtClasses ce i q) r
            < ratio * numForegroundPerImg K (gtClasses i)) := by
    rw [Finset.filter_filter]
    apply Finset.filter_congr
    intro r _
    unfold hardNegative negRank
    tauto
  rw [hset]
  exact card_filter_rankOf_lt _ _ hdom _

/-- Witness for hard_negative_count_eq_min: one image, three anchors, one
foreground and two background anchors with positive negative losses, ratio
three: exactly min(3, 2) = 2 hard negatives. -/
theorem hard_negative_count_eq_min_witness :
    (∀ r : Fin 3, backgroundIdx 1 ((fun (_ : Fin 1) (r : Fin 3) =>
        if r = 0 then (0 : ℤ) else 1) 0 r) →
      0 < (fun (_ : Fin 1) (r : Fin 3) =>
        if r = 1 then (3 : ℚ) else if r = 2 then 7 else 5) 0 r)
    ∧ (Finset.univ.filter (fun r => hardNegative 1 3
          (fun (_ : Fin 1) (r : Fin 3) => if r = 0 then (0 : ℤ) else 1)
          (fun (_ : Fin 1) (r : Fin 3) => if r = 1 then (3 : ℚ) else if r = 2 then 7 else 5)
          0 r)).card
        = min (3 * numForegroundPerImg 1
            ((fun (_ : Fin 1) (r : Fin 3) => if r = 0 then (0 : ℤ) else 1) 0))
          ((Finset.univ.filter (fun r => backgroundIdx 1
            ((fun (_ : Fin 1) (r : Fin 3) => if r = 0 then (0 : ℤ) else 1) 0 r))).card) :=
  ⟨by decide, hard_negative_count_eq_min 1 3 _ _ 0 (by decide)⟩

/-- C9: In the Multibox loss variant, for fixed inputs the number of
hard-negative background anchors selected over the batch is monotonically
non-decreasing in the neg_pos_ratio constant. -/
theorem hard_negative_count_mono_in_ratio [LinearOrderedField α] (K : ℕ) {N R : ℕ}
    (gtClasses : Fin N → Fin R → ℤ) (ce : Fin N → Fin R → α) {r1 r2 : ℕ}
    (h : r1 ≤ r2) :
    (Finset.univ.filter (fun p : Fin N × Fin R =>
        hardNegative K r1 gtClasses ce p.1 p.2)).card
      ≤ (Finset.univ.filter (fun p : Fin N × Fin R =>
          hardNegative K r2 gtClasses ce p.1 p.2)).card := by
  apply Finset.card_le_card
  intro p hp
  rw [Finset.mem_filter] at hp ⊢
  refine ⟨hp.1, ?_⟩
  obtain ⟨hrank, hbg⟩ := hp.2
  exact ⟨lt_of_lt_of_le hrank (Nat.mul_le_mul_right _ h), hbg⟩

/-- Witness for hard_negative_count_mono_in_ratio at ratios 1 and 2 on a
concrete one-image batch. -/
theorem hard_negative_count_mono_in_ratio_witness :
    1 ≤ 2
    ∧ (Finset.univ.filter (fun p : Fin 1 × Fin 3 =>
          hardNegative 1 1 (fun (_ : Fin 1) (r : Fin 3) => if r = 0 then (0 : ℤ) else 1)
            (fun (_ : Fin 1) (r : Fin 3) => if r = 1 then (3 : ℚ) else if r = 2 then 7 else 5)
            p.1 p.2)).card
        ≤ (Finset.univ.filter (fun p : Fin 1 × Fin 3 =>
            hardNegative 1 2 (fun (_ : Fin 1) (r : Fin 3) => if r = 0 then (0 : ℤ) else 1)
              (fun (_ : Fin 1) (r : Fin 3) => if r = 1 then (3 : ℚ) else if r = 2 then 7 else 5)
              p.1 p.2)).card :=
  ⟨by decide, hard_negative_count_mono_in_ratio 1 _ _ (by decide)⟩

/-! ## Regression loss -/

lemma lossBoxReg_congr_on_fg [LinearOrderedField α] (K : ℕ) {N R : ℕ} (beta : α)
    (gtClasses : Fin N → Fin R → ℤ)
    (gtDeltas predDeltas junkG junkP : Fin N → Fin R → Fin 4 → α) :
    lossBoxReg K beta gtClasses
        (fun i r k => if foregroundIdx K (gtClasses i r) then gtDeltas i r k else junkG i r k)
        (fun i r k => if foregroundIdx K (gtClasses i r) then predDeltas i r k else junkP i r k)
      = lossBoxReg K beta gtClasses gtDeltas predDeltas := by
  unfold lossBoxReg
  congr 1
  apply Finset.sum_congr rfl
  intro p hp
  rw [Finset.mem_filter] at hp
  apply Finset.sum_congr rfl
  intro k _
  simp only [hp.2, if_true]

/-- C4: Under both loss variants, the regression loss equals smooth-L1
between predicted deltas and regression targets summed over foreground
anchors only, divided by max(1, batch-wide numForeground); the delta values
at background and ignore anchors do not influence it. -/
theorem regression_loss_foreground_only (name : LossName) (K ratio : ℕ) {N R : ℕ}
    (alpha gamma beta : ℝ) (gtClasses : Fin N → Fin R → ℤ)
    (logits : Fin N → Fin R → ℕ → ℝ)
    (gtDeltas predDeltas junkG junkP : Fin N → Fin R → Fin 4 → ℝ) :
    (ssdLosses name K ratio alpha gamma beta gtClasses logits gtDeltas predDeltas).2
      = (∑ p ∈ Finset.univ.filter (fun p : Fin N × Fin R =>
            foregroundIdx K (gtClasses p.1 p.2)),
          ∑ k : Fin 4, smoothL1 beta (predDeltas p.1 p.2 k) (gtDeltas p.1 p.2 k))
        / (max 1 (numForeground K gtClasses) : ℕ)
    ∧ (ssdLosses name K ratio alpha gamma beta gtClasses logits
        (fun i r k => if foregroundIdx K (gtClasses i r) then gtDeltas i r k else junkG i r k)
        (fun i r k => if foregroundIdx K (gtClasses i r) then predDeltas i r k else junkP i r k)).2
      = (ssdLosses name K ratio alpha gamma beta gtClasses logits gtDeltas predDeltas).2 :=
  ⟨rfl, lossBoxReg_congr_on_fg K beta gtClasses gtDeltas predDeltas junkG junkP⟩

/-! ## Batch with zero foreground anchors -/

lemma not_foreground_of_numForeground_zero (K : ℕ) {N R : ℕ}
    {gtClasses : Fin N → Fin R → ℤ} (h : numForeground K gtClasses = 0)
    (p : Fin N × Fin R) : ¬ foregroundIdx K (gtClasses p.1 p.2) := by
  intro hp
  unfold numForeground at h
  rw [Finset.card_eq_zero] at h
  have : p ∈ Finset.univ.filter (fun p : Fin N × Fin R =>
      foregroundIdx K (gtClasses p.1 p.2)) :=
    Finset.mem_filter.mpr ⟨Finset.mem_univ p, hp⟩
  rw [h] at this
  exact absurd this (Finset.not_mem_empty p)

lemma numForegroundPerImg_zero_of_numForeground_zero (K : ℕ) {N R : ℕ}
    {gtClasses : Fin N → Fin R → ℤ} (h : numForeground K gtClasses = 0) (i : Fin N) :
    numForegroundPerImg K (gtClasses i) = 0 := by
  unfold numForegroundPerImg
  rw [Finset.card_eq_zero, Finset.filter_eq_empty_iff]
  intro r _
  exact not_foreground_of_numForeground_zero K h (i, r)

/-- C5 (amended): For every batch whose batch-wide foreground count is
zero, both loss outputs are well-defined through the max(1, .) floor, the
regression loss is exactly 0 under both variants, and the Multibox
classification loss is exactly 0 (the ratio rule selects zero hard
negatives).  The Focal classification loss is not zero in general, see the
counterexample. -/
theorem losses_zero_of_no_foreground (name : LossName) (K ratio : ℕ) {N R : ℕ}
    (alpha gamma beta : ℝ) (gtClasses : Fin N → Fin R → ℤ)
    (logits : Fin N → Fin R → ℕ → ℝ) (gtDeltas predDeltas : Fin N → Fin R → Fin 4 → ℝ)
    (h : numForeground K gtClasses = 0) :
    (ssdLosses name K ratio alpha gamma beta gtClasses logits gtDeltas predDeltas).2 = 0
    ∧ (ssdLosses LossName.Multibox K ratio alpha gamma beta gtClasses logits
        gtDeltas predDeltas).1 = 0 := by
  constructor
  · show lossBoxReg K beta gtClasses gtDeltas predDeltas = 0
    unfold lossBoxReg
    rw [Finset.sum_eq_zero, zero_div]
    intro p hp
    rw [Finset.mem_filter] at hp
    exact absurd hp.2 (not_foreground_of_numForeground_zero K h p)
  · show multiboxLossCls K ratio gtClasses _ = 0
    rw [multiboxLossCls_eq_sum_union]
    rw [Finset.sum_eq_zero, zero_div]
    intro p hp
    rw [Finset.mem_filter] at hp
    rcases hp.2 with hfg | hhn
    · exact absurd hfg (not_foreground_of_numForeground_zero K h p)
    · have := hhn.1
      rw [numForegroundPerImg_zero_of_numForeground_zero K h p.1, Nat.mul_zero] at this
      exact absurd this (Nat.not_lt_zero _)

/-- Witness for losses_zero_of_no_foreground: a one-anchor batch whose only
anchor is background. -/
theorem losses_zero_of_no_foreground_witness :
    numForeground 1 (fun (_ : Fin 1) (_ : Fin 1) => (1 : ℤ)) = 0
    ∧ ((ssdLosses LossName.Focal 1 3 (1/4) 2 1
          (fun (_ : Fin 1) (_ : Fin 1) => (1 : ℤ)) (fun _ _ _ => (0 : ℝ))
          (fun _ _ _ => 0) (fun _ _ _ => 0)).2 = 0
        ∧ (ssdLosses LossName.Multibox 1 3 (1/4) 2 1
            (fun (_ : Fin 1) (_ : Fin 1) => (1 : ℤ)) (fun _ _ _ => (0 : ℝ))
            (fun _ _ _ => 0) (fun _ _ _ => 0)).1 = 0) :=
  ⟨by decide, losses_zero_of_no_foreground LossName.Focal 1 3 (1/4) 2 1 _ _ _ _ (by decide)⟩

/-! ## The Focal classification loss on a foreground-free batch -/

lemma sigmoid_zero : sigmoid 0 = 1 / 2 := by
  unfold sigmoid
  rw [neg_zero, Real.exp_zero]
  norm_num

lemma sigmoidCE_zero (t : ℝ) : sigmoidCE 0 t = Real.log 2 := by
  unfold sigmoidCE
  rw [sigmoid_zero]
  have h : (1 : ℝ) - 1 / 2 = 1 / 2 := by norm_num
  rw [h, one_div, Real.log_inv]
  ring

lemma rpow_half_sq : ((1 : ℝ) / 2) ^ (2 : ℝ) = 1 / 4 := by
  rw [show (2 : ℝ) = ((2 : ℕ) : ℝ) by norm_num, Real.rpow_natCast]
  norm_num

lemma sigmoidFocalLoss_at_zero (t : ℝ) :
    sigmoidFocalLoss (1/4) 2 0 t
      = (1/4 * t + (1 - 1/4) * (1 - t)) * (Real.log 2 * (1/4)) := by
  unfold sigmoidFocalLoss
  rw [if_pos (by norm_num : (0:ℝ) ≤ 1/4), sigmoidCE_zero, sigmoid_zero]
  have harg : (1 : ℝ) - (1 / 2 * t + (1 - 1 / 2) * (1 - t)) = 1 / 2 := by ring
  rw [harg, rpow_half_sq]

lemma focalLossCls_concrete :
    focalLossCls 1 (1/4 : ℝ) 2 (fun (_ : Fin 1) (_ : Fin 1) => (1 : ℤ))
      (fun _ _ _ => 0) = 1/4 * Real.log 2 := by
  unfold focalLossCls
  rw [show numForeground 1 (fun (_ : Fin 1) (_ : Fin 1) => (1 : ℤ)) = 0 from by decide]
  rw [Fintype.sum_prod_type, Fin.sum_univ_one, Fin.sum_univ_one]
  rw [if_pos (by decide : validIdx (1 : ℤ))]
  rw [Finset.sum_range_succ, Finset.sum_range_succ, Finset.sum_range_zero]
  have ht0 : ((gtClassesTarget (1 : ℤ) 0 : ℚ) : ℝ) = 0 := by
    norm_num [gtClassesTarget]
  have ht1 : ((gtClassesTarget (1 : ℤ) 1 : ℚ) : ℝ) = 1 := by
    norm_num [gtClassesTarget]
  rw [ht0, ht1, sigmoidFocalLoss_at_zero, sigmoidFocalLoss_at_zero]
  norm_num
  ring

/-- C5 is refuted for the Focal variant: a batch with zero foreground
anchors and one valid background anchor has a strictly positive Focal
classification loss, not 0 as the claim states for both variants. -/
theorem focal_cls_loss_nonzero_with_no_foreground :
    numForeground 1 (fun (_ : Fin 1) (_ : Fin 1) => (1 : ℤ)) = 0
    ∧ (ssdLosses LossName.Focal 1 3 (1/4) 2 1
        (fun (_ : Fin 1) (_ : Fin 1) => (1 : ℤ)) (fun _ _ _ => (0 : ℝ))
        (fun _ _ _ => 0) (fun _ _ _ => 0)).1 ≠ 0 := by
  refine ⟨by decide, ?_⟩
  show focalLossCls 1 (1/4 : ℝ) 2 (fun (_ : Fin 1) (_ : Fin 1) => (1 : ℤ))
      (fun _ _ _ => 0) ≠ 0
  rw [focalLossCls_concrete]
  have h2 : 0 < Real.log 2 := Real.log_pos (by norm_num)
  exact ne_of_gt (mul_pos (by norm_num) h2)

/-! ## The Focal classification targets -/

/-- C3 is refuted: with K = 2 object classes the target row built for a
background anchor (class value 2 = K) is not all-zero over its 3 = K+1
columns; position K carries a 1. -/
theorem background_target_not_all_zero :
    ¬ (∀ c : Fin 3, gtClassesTarget (2 : ℤ) (c : ℕ) = 0) := by
  decide

/-- C3 (amended): the classification target row of every non-ignored
anchor is one-hot over the K+1 columns of the logit tensor, with the 1
exactly at its class target; a background anchor (class value K) has its 1
at the background column K, hence is all-zero over the K object-class
columns; an ignored anchor has an all-zero row. -/
theorem focal_target_one_hot (K : ℕ) (g : ℤ) :
    (0 ≤ g → gtClassesTarget g g.toNat = 1)
    ∧ (∀ c : ℕ, (c : ℤ) ≠ g → gtClassesTarget g c = 0)
    ∧ (g = (K : ℤ) → ∀ c : ℕ, c < K → gtClassesTarget g c = 0)
    ∧ (g = -1 → ∀ c : ℕ, gtClassesTarget g c = 0) := by
  refine ⟨?_, ?_, ?_, ?_⟩
  · intro hg
    unfold gtClassesTarget
    rw [if_pos ⟨hg, (Int.toNat_of_nonneg hg).symm⟩]
  · intro c hc
    unfold gtClassesTarget
    rw [if_neg (fun hcond => hc hcond.2.symm)]
  · intro hgK c hcK
    unfold gtClassesTarget
    rw [if_neg]
    intro hcond
    rw [hgK] at hcond
    have : (c : ℤ) < (K : ℤ) := by exact_mod_cast hcK
    rw [← hcond.2] at this
    exact lt_irrefl _ this
  · intro hg c
    unfold gtClassesTarget
    rw [if_neg]
    intro hcond
    rw [hg] at hcond
    exact absurd hcond.1 (by norm_num)

/-- Witness for focal_target_one_hot with K = 2 and a background anchor. -/
theorem focal_target_one_hot_witness :
    gtClassesTarget (2 : ℤ) (2 : ℤ).toNat = 1 ∧ gtClassesTarget (2 : ℤ) 0 = 0 :=
  ⟨(focal_target_one_hot 2 2).1 (by decide),
   (focal_target_one_hot 2 2).2.2.1 (by decide) 0 (by decide)⟩

/-! ## Zero ground-truth images -/

lemma lossBoxReg_eq_sum_images [LinearOrderedField α] (K : ℕ) {N R : ℕ} (beta : α)
    (gtClasses : Fin N → Fin R → ℤ) (gtDeltas predDeltas : Fin N → Fin R → Fin 4 → α) :
    lossBoxReg K beta gtClasses gtDeltas predDeltas
      = (∑ i : Fin N, imageRegContribution K beta (gtClasses i) (gtDeltas i) (predDeltas i))
        / (max 1 (numForeground K gtClasses) : ℕ) := by
  unfold lossBoxReg imageRegContribution
  congr 1
  rw [Finset.sum_filter, Fintype.sum_prod_type]
  apply Finset.sum_congr rfl
  intro i _
  rw [Finset.sum_filter]

/-- C6: For an image with zero ground-truth instances, target assignment
labels every anchor background (class target K) with zero-filled deltas,
and the regression-loss contribution of such an image is exactly 0; the
batch regression loss decomposes as the sum of per-image contributions
divided by max(1, numForeground). -/
theorem zero_gt_image_all_background (K : ℕ) {A : ℕ} (beta : ℚ)
    (matchedIdxs : Fin A → ℕ) (anchorLabels : Fin A → ℤ)
    (anchorBoxes : Fin A → Box) (getDeltas : Box → Box → Fin 4 → ℚ)
    (predD : Fin A → Fin 4 → ℚ) :
    (getGroundTruthSingle K [] matchedIdxs anchorLabels anchorBoxes getDeltas).1
        = (fun _ => (K : ℤ))
    ∧ (getGroundTruthSingle K [] matchedIdxs anchorLabels anchorBoxes getDeltas).2
        = (fun _ _ => 0)
    ∧ imageRegContribution K beta
        (getGroundTruthSingle K [] matchedIdxs anchorLabels anchorBoxes getDeltas).1
        (getGroundTruthSingle K [] matchedIdxs anchorLabels anchorBoxes getDeltas).2 predD = 0
    ∧ (∀ (N R : ℕ) (gt : Fin N → Fin R → ℤ) (gtD pD : Fin N → Fin R → Fin 4 → ℚ),
        lossBoxReg K beta gt gtD pD
          = (∑ i : Fin N, imageRegContribution K beta (gt i) (gtD i) (pD i))
            / (max 1 (numForeground K gt) : ℕ)) := by
  have h1 : getGroundTruthSingle K ([] : List (Box × ℕ)) matchedIdxs anchorLabels
      anchorBoxes getDeltas = (fun _ => (K : ℤ), fun _ _ => 0) := by
    unfold getGroundTruthSingle
    rw [if_neg (by simp : ¬ 0 < ([] : List (Box × ℕ)).length)]
  refine ⟨by rw [h1], by rw [h1], ?_, ?_⟩
  · rw [h1]
    unfold imageRegContribution
    apply Finset.sum_eq_zero
    intro r hr
    rw [Finset.mem_filter] at hr
    exact absurd rfl hr.2.2
  · intro N R gt gtD pD
    exact lossBoxReg_eq_sum_images K beta gt gtD pD

/-! ## Sorting facts for the per-level candidate selection -/

instance [LinearOrder α] (score : ℕ → α) : IsTotal ℕ (descBy score) := by
  constructor
  intro a b
  rcases lt_trichotomy (score a) (score b) with h | h | h
  · exact Or.inr (Or.inl h)
  · rcases le_total a b with hab | hab
    · exact Or.inl (Or.inr ⟨h, hab⟩)
    · exact Or.inr (Or.inr ⟨h.symm, hab⟩)
  · exact Or.inl (Or.inl h)

instance [LinearOrder α] (score : ℕ → α) : IsTrans ℕ (descBy score) := by
  constructor
  intro a b c hab hbc
  rcases hab with hab | ⟨hab1, hab2⟩
  · rcases hbc with hbc | ⟨hbc1, hbc2⟩
    · exact Or.inl (lt_trans hbc hab)
    · exact Or.inl (hbc1 ▸ hab)
  · rcases hbc with hbc | ⟨hbc1, hbc2⟩
    · exact Or.inl (hab1 ▸ hbc)
    · exact Or.inr ⟨hab1.trans hbc1, le_trans hab2 hbc2⟩

lemma sortIdxs_perm [LinearOrder α] [Inhabited α] (l : List α) :
    List.Perm (sortIdxs l) (List.range l.length) :=
  List.perm_insertionSort _ _

lemma sortIdxs_sorted [LinearOrder α] [Inhabited α] (l : List α) :
    List.Sorted (descBy (flatScore l)) (sortIdxs l) :=
  List.sorted_insertionSort _ _

lemma length_sortIdxs [LinearOrder α] [Inhabited α] (l : List α) :
    (sortIdxs l).length = l.length := by
  rw [(sortIdxs_perm l).length_eq, List.length_range]

lemma mem_sortIdxs [LinearOrder α] [Inhabited α] (l : List α) {j : ℕ} :
    j ∈ sortIdxs l ↔ j < l.length := by
  rw [(sortIdxs_perm l).mem_iff, List.mem_range]

lemma levelFlat_eq_map [LinearOrder α] [Inhabited α] (R K : ℕ) (grid : ℕ → ℕ → α) :
    levelFlat R K grid = (List.range (R * K)).map (fun j => grid (j / K) (j % K)) := by
  induction R with
  | zero => simp [levelFlat]
  | succ n ih =>
    unfold levelFlat at ih ⊢
    rw [List.range_succ, List.map_append, List.flatten_append, ih]
    have hnk : (n + 1) * K = n * K + K := by ring
    rw [hnk, List.range_add, List.map_append]
    congr 1
    · simp only [List.map_singleton, List.flatten_cons, List.flatten_nil, List.append_nil]
      rw [List.map_map]
      apply List.map_congr_left
      intro c hc
      rw [List.mem_range] at hc
      have hK : 0 < K := by omega
      simp only [Function.comp]
      have hdiv : (n * K + c) / K = n := by
        rw [mul_comm n K, Nat.mul_add_div hK, Nat.div_eq_of_lt hc, Nat.add_zero]
      have hmod : (n * K + c) % K = c := by
        rw [mul_comm n K, Nat.mul_add_mod, Nat.mod_eq_of_lt hc]
      rw [hdiv, hmod]

lemma levelFlat_length [LinearOrder α] [Inhabited α] (R K : ℕ) (grid : ℕ → ℕ → α) :
    (levelFlat R K grid).length = R * K := by
  rw [levelFlat_eq_map, List.length_map, List.length_range]

lemma flatScore_levelFlat [LinearOrder α] [Inhabited α] {R K j : ℕ} (grid : ℕ → ℕ → α)
    (h : j < R * K) : flatScore (levelFlat R K grid) j = grid (j / K) (j % K) := by
  unfold flatScore
  rw [levelFlat_eq_map]
  have hlen : j < ((List.range (R * K)).map
      (fun j => grid (j / K) (j % K))).length := by
    rw [List.length_map, List.length_range]
    exact h
  rw [List.getD_eq_getElem _ _ hlen, List.getElem_map, List.getElem_range]

lemma pairwise_take_drop {β : Type*} {r : β → β → Prop} {l : List β}
    (h : List.Pairwise r l) (n : ℕ) :
    ∀ x ∈ l.take n, ∀ y ∈ l.drop n, r x y := by
  have h2 : List.Pairwise r (l.take n ++ l.drop n) := by
    rw [List.take_append_drop]
    exact h
  exact (List.pairwise_append.mp h2).2.2

lemma lt_length_of_mem_keepIdxs [LinearOrder α] [Inhabited α] {thr : α} {topk R : ℕ}
    {l : List α} {j : ℕ} (h : j ∈ keepIdxs thr topk R l) : j < l.length := by
  unfold keepIdxs at h
  have h2 := List.mem_of_mem_filter h
  unfold topkIdxs at h2
  have h3 := List.mem_of_mem_take h2
  exact (mem_sortIdxs l).mp h3

/-- C7 is refuted: the per-level truncation keeps
min(topk_candidates, R) entries where R is the anchor-location count, not
min(topk_candidates, flattened-length).  With R = 1 location, K = 2
classes and topk_candidates = 5 the flattened score list has 2 entries and
the claim asks for all of them, but only 1 is kept. -/
theorem topk_keeps_anchor_count_not_flat_count :
    ¬ ((topkIdxs 5 1 (levelFlat 1 2 (fun _ c => if c = 0 then (3 : ℚ) else 2))).length
        = min 5 ((levelFlat 1 2 (fun _ c => if c = 0 then (3 : ℚ) else 2)).length)) := by
  decide

/-- C7 (amended): per feature level, the flattened (location, class) score
list is sorted descending and the top min(topkCandidates, R) entries are
kept, R being the anchor-location count of the level (so fewer than
topkCandidates entries are kept whenever R is smaller, even if the
flattened list is longer); every kept entry scores at least every dropped
entry, and score thresholding is applied after this truncation, before any
cross-level merge. -/
theorem topk_per_level_selection [LinearOrder α] [Inhabited α] (topk R K : ℕ)
    (grid : ℕ → ℕ → α) (thr : α) :
    (topkIdxs topk R (levelFlat R K grid)).length = min (min topk R) (R * K)
    ∧ List.Sorted
        (fun a b => flatScore (levelFlat R K grid) b ≤ flatScore (levelFlat R K grid) a)
        (topkIdxs topk R (levelFlat R K grid))
    ∧ List.Forall (fun j => List.Forall
          (fun j2 => flatScore (levelFlat R K grid) j2 ≤ flatScore (levelFlat R K grid) j)
          ((sortIdxs (levelFlat R K grid)).drop (numTopk topk R)))
        (topkIdxs topk R (levelFlat R K grid))
    ∧ (keepIdxs thr topk R (levelFlat R K grid)).Sublist
        (topkIdxs topk R (levelFlat R K grid)) := by
  have hdesc : ∀ a b : ℕ, descBy (flatScore (levelFlat R K grid)) a b →
      flatScore (levelFlat R K grid) b ≤ flatScore (levelFlat R K grid) a := by
    intro a b hab
    rcases hab with hab | ⟨hab, _⟩
    · exact le_of_lt hab
    · exact le_of_eq hab.symm
  refine ⟨?_, ?_, ?_, ?_⟩
  · unfold topkIdxs numTopk
    rw [List.length_take, length_sortIdxs, levelFlat_length]
  · have hs : List.Sorted (descBy (flatScore (levelFlat R K grid)))
        (topkIdxs topk R (levelFlat R K grid)) :=
      List.Pairwise.sublist (List.take_sublist _ _) (sortIdxs_sorted _)
    exact List.Pairwise.imp (fun hab => hdesc _ _ hab) hs
  · rw [List.forall_iff_forall_mem]
    intro j hj
    rw [List.forall_iff_forall_mem]
    intro j2 hj2
    exact hdesc j j2 (pairwise_take_drop (sortIdxs_sorted _) (numTopk topk R) j hj j2 hj2)
  · exact List.filter_sublist _

/-! ## Softmax bounds -/

lemma softmaxCol_nonneg (K1 : ℕ) (row : ℕ → ℝ) (c : ℕ) : 0 ≤ softmaxCol K1 row c := by
  unfold softmaxCol
  apply div_nonneg (Real.exp_pos _).le
  apply Finset.sum_nonneg
  intro d _
  exact (Real.exp_pos _).le

lemma softmaxCol_le_one {K1 c : ℕ} (row : ℕ → ℝ) (hc : c < K1) :
    softmaxCol K1 row c ≤ 1 := by
  unfold softmaxCol
  have hpos : 0 < ∑ d ∈ Finset.range K1, Real.exp (row d) := by
    apply Finset.sum_pos (fun d _ => Real.exp_pos _)
    exact Finset.nonempty_range_iff.mpr (by omega)
  rw [div_le_one hpos]
  exact Finset.single_le_sum (fun d _ => (Real.exp_pos (row d)).le)
    (Finset.mem_range.mpr hc)

lemma mem_inferenceScoresAll_unit {K topk : ℕ} {thr : ℝ}
    {levels : List (ℕ × (ℕ → ℕ → ℝ))} {s : ℝ}
    (hs : s ∈ inferenceScoresAll K topk thr levels) : 0 ≤ s ∧ s ≤ 1 := by
  unfold inferenceScoresAll at hs
  rw [List.mem_flatten] at hs
  obtain ⟨ls, hls, hsl⟩ := hs
  rw [List.mem_map] at hls
  obtain ⟨lv, hlv, rfl⟩ := hls
  unfold levelScores at hsl
  rw [List.mem_map] at hsl
  obtain ⟨j, hj, rfl⟩ := hsl
  have hjlen := lt_length_of_mem_keepIdxs hj
  rw [levelFlat_length] at hjlen
  have hK : 0 < K := by
    rcases Nat.eq_zero_or_pos K with h0 | h0
    · rw [h0, Nat.mul_zero] at hjlen
      omega
    · exact h0
  rw [flatScore_levelFlat _ hjlen]
  unfold levelSoftmaxGrid
  refine ⟨softmaxCol_nonneg _ _ _, ?_⟩
  apply softmaxCol_le_one
  have := Nat.mod_lt j hK
  omega

/-- C8: During inference a candidate survives score filtering exactly when
its softmax score is strictly greater than the score threshold (entries at
or below it are dropped), and every score attached to a returned detection
lies in the interval from 0 to 1. -/
theorem score_filter_strict_and_scores_in_unit (K topk : ℕ) (thr : ℝ) :
    (∀ (R : ℕ) (logits : ℕ → ℕ → ℝ) (j : ℕ),
      j ∈ keepIdxs thr topk R (levelFlat R K (levelSoftmaxGrid K logits))
        ↔ j ∈ topkIdxs topk R (levelFlat R K (levelSoftmaxGrid K logits))
            ∧ thr < flatScore (levelFlat R K (levelSoftmaxGrid K logits)) j)
    ∧ (∀ (levels : List (ℕ × (ℕ → ℕ → ℝ))) (maxDet : ℕ)
        (keep : List (Fin (inferenceScoresAll K topk thr levels).length)),
        List.Forall (fun s => 0 ≤ s ∧ s ≤ 1)
          (resultScores K topk thr levels maxDet keep)) := by
  constructor
  · intro R logits j
    unfold keepIdxs
    rw [List.mem_filter, decide_eq_true_eq]
  · intro levels maxDet keep
    rw [List.forall_iff_forall_mem]
    intro s hs
    unfold resultScores at hs
    rw [List.mem_map] at hs
    obtain ⟨i, hi, rfl⟩ := hs
    apply mem_inferenceScoresAll_unit
    rw [List.get_eq_getElem]
    exact List.getElem_mem _

/-- C10: The background class is consistently index K at both ends of the
pipeline.  Target assignment writes the sentinel K as the class target of
every anchor the matcher labelled 0 (background), whether or not ground
truth exists; the per-level flattening of inference reads exactly the K
object-class columns of the softmax grid, never the last column K (writing
arbitrary junk there leaves the flattened scores unchanged), the flat index
j decodes back to location j / K and class j % K, and every recovered
detection class index is strictly below K. -/
theorem background_sentinel_consistent [LinearOrder α] [Inhabited α] (K : ℕ) {A : ℕ}
    (targets : List (Box × ℕ)) (matchedIdxs : Fin A → ℕ) (anchorLabels : Fin A → ℤ)
    (anchorBoxes : Fin A → Box) (getDeltas : Box → Box → Fin 4 → ℚ)
    (r : Fin A) (hlab : anchorLabels r = 0)
    (R topk : ℕ) (grid junk : ℕ → ℕ → α) (thr : α) :
    (getGroundTruthSingle K targets matchedIdxs anchorLabels anchorBoxes getDeltas).1 r
        = (K : ℤ)
    ∧ levelFlat R K (fun r2 c => if c < K then grid r2 c else junk r2 c)
        = levelFlat R K grid
    ∧ levelFlat R K grid = (List.range (R * K)).map (fun j => grid (j / K) (j % K))
    ∧ List.Forall (fun c => c < K)
        ((keepIdxs thr topk R (levelFlat R K grid)).map (fun j => j % K)) := by
  refine ⟨?_, ?_, levelFlat_eq_map R K grid, ?_⟩
  · unfold getGroundTruthSingle
    by_cases ht : 0 < targets.length
    · rw [if_pos ht]
      simp [hlab]
    · rw [if_neg ht]
  · rw [levelFlat_eq_map, levelFlat_eq_map]
    apply List.map_congr_left
    intro j hj
    rw [List.mem_range] at hj
    have hK : 0 < K := by
      rcases Nat.eq_zero_or_pos K with h0 | h0
      · rw [h0, Nat.mul_zero] at hj
        omega
      · exact h0
    simp only [Nat.mod_lt j hK, if_true]
  · rw [List.forall_iff_forall_mem]
    intro c hc
    rw [List.mem_map] at hc
    obtain ⟨j, hj, rfl⟩ := hc
    have hjlen := lt_length_of_mem_keepIdxs hj
    rw [levelFlat_length] at hjlen
    have hK : 0 < K := by
      rcases Nat.eq_zero_or_pos K with h0 | h0
      · rw [h0, Nat.mul_zero] at hjlen
        omega
      · exact h0
    exact Nat.mod_lt j hK

/-- Witness for background_sentinel_consistent on a concrete instance:
one anchor labelled 0 by the matcher, one location, two classes. -/
theorem background_sentinel_consistent_witness :
    (fun (_ : Fin 1) => (0 : ℤ)) 0 = 0
    ∧ ((getGroundTruthSingle 2 [(dummyBox, 1)] (fun _ => 0) (fun (_ : Fin 1) => (0 : ℤ))
          (fun _ => dummyBox) (fun _ _ _ => 0)).1 0 = (2 : ℤ)
        ∧ levelFlat 1 2 (fun r2 c => if c < 2 then (fun _ c2 => if c2 = 0 then (3 : ℚ) else 2) r2 c
              else (fun _ _ => (9 : ℚ)) r2 c)
            = levelFlat 1 2 (fun _ c2 => if c2 = 0 then (3 : ℚ) else 2)
        ∧ levelFlat 1 2 (fun _ c2 => if c2 = 0 then (3 : ℚ) else 2)
            = (List.range (1 * 2)).map
                (fun j => (fun _ c2 => if c2 = 0 then (3 : ℚ) else 2) (j / 2) (j % 2))
        ∧ List.Forall (fun c => c < 2)
            ((keepIdxs (0 : ℚ) 5 1
                (levelFlat 1 2 (fun _ c2 => if c2 = 0 then (3 : ℚ) else 2))).map
              (fun j => j % 2))) :=
  ⟨rfl, background_sentinel_consistent 2 [(dummyBox, 1)] (fun _ => 0)
    (fun (_ : Fin 1) => (0 : ℤ)) (fun _ => dummyBox) (fun _ _ _ => 0) 0 rfl
    1 5 (fun _ c2 => if c2 = 0 then (3 : ℚ) else 2) (fun _ _ => (9 : ℚ)) 0⟩

end SSDSpec
